import Mathlib

/-!
Verification development for the ExpenSync repository.

The SQLite store (`src/db.py`) is shallowly embedded: each table is a list of
rows in insertion (rowid) order, AUTOINCREMENT primary keys are modelled by
`next...Id` counters starting at 1, REAL amounts are modelled as exact
rationals `ℚ` (the one floating-point-sensitive claim is handled with an
explicit binary64 rounding model below), `datetime('now')` timestamps are
modelled by an explicit `now : Nat` argument to the operations that stamp
them, and dates are carried as their ISO strings.  The `created_at` columns
are write-only in the program and are omitted.  The UI computations of
`src/pages/4_👥_Group_Expenses.py` (equal/custom split, the share-sum
validation, and the owed/paid aggregation) are embedded as pure functions.
-/

/-- Row of the `users` table (`src/db.py`, `init_db`). -/
structure User where
  name : String
  email : String
  passwordHash : String
  deriving DecidableEq

/-- Row of the `group_expenses` table (`src/db.py`, `init_db`). -/
structure GroupExpense where
  title : String
  amount : ℚ
  payerId : Nat
  category : String
  date : String
  description : String
  isSettled : Bool
  settledAt : Option Nat
  deriving DecidableEq

/-- Row of the `group_expense_shares` table (`src/db.py`, `init_db`). -/
structure ExpenseShare where
  groupExpenseId : Nat
  userId : Nat
  shareAmount : ℚ
  isSettled : Bool
  settledAt : Option Nat
  deriving DecidableEq

/-- Row of the `transactions` table (`src/db.py`, `init_db`). -/
structure Txn where
  userId : Nat
  amount : ℚ
  description : Option String
  category : Option String
  date : String
  txnType : String
  paymentMethod : Option String
  tags : Option String
  deriving DecidableEq

/-- Row of the `budgets` table (`src/db.py`, `init_db`). -/
structure Budget where
  userId : Nat
  yearMonth : String
  category : Option String
  amount : ℚ
  deriving DecidableEq

/-- The whole SQLite database.  Each table is kept in rowid (insertion)
order, which is the order in which unordered SELECTs scan rows. -/
structure DB where
  users : List (Nat × User)
  nextUserId : Nat
  groupExpenses : List (Nat × GroupExpense)
  nextExpenseId : Nat
  shares : List (Nat × ExpenseShare)
  nextShareId : Nat
  transactions : List (Nat × Txn)
  nextTxnId : Nat
  budgets : List Budget
  deriving DecidableEq

/-- The freshly initialised database (`init_db` creates empty tables;
AUTOINCREMENT ids start at 1). -/
def DB.empty : DB := ⟨[], 1, [], 1, [], 1, [], 1, []⟩

/-- Python `(x or None)`: an empty string is stored as NULL
(`src/db.py`, `add_transaction` / `update_transaction`). -/
def blankToNone (s : Option String) : Option String :=
  match s with
  | some t => if t = "" then none else some t
  | none => none

/-- Embeds `create_user` (`src/db.py`): inserts a row with the e-mail
lower-cased and stripped, returns the new id. -/
def create_user (name email passwordHash : String) (db : DB) : Nat × DB :=
  (db.nextUserId,
    { db with
      users := db.users ++ [(db.nextUserId, ⟨name, email.toLower.trim, passwordHash⟩)],
      nextUserId := db.nextUserId + 1 })

/-- Embeds `get_user_by_email` (`src/db.py`). -/
def get_user_by_email (email : String) (db : DB) : Option (Nat × User) :=
  db.users.find? (fun p => p.2.email = email.toLower.trim)

/-- Embeds `update_user_password` (`src/db.py`). -/
def update_user_password (uid : Nat) (newHash : String) (db : DB) : DB :=
  { db with
    users := db.users.map (fun p =>
      if p.1 = uid then (p.1, { p.2 with passwordHash := newHash }) else p) }

/-- Embeds `add_transaction` (`src/db.py`): unconditional insert, returns
the new id. -/
def add_transaction (uid : Nat) (amount : ℚ) (descr cat : Option String)
    (date ty : String) (pm tags : Option String) (db : DB) : Nat × DB :=
  (db.nextTxnId,
    { db with
      transactions := db.transactions ++
        [(db.nextTxnId,
          ⟨uid, amount, blankToNone descr, blankToNone cat, date, ty,
            blankToNone pm, blankToNone tags⟩)],
      nextTxnId := db.nextTxnId + 1 })

/-- Embeds `update_transaction` (`src/db.py`): the UPDATE is guarded by
`WHERE id = ? AND user_id = ?`, so only a row with matching id owned by
the caller is rewritten. -/
def update_transaction (tid uid : Nat) (amount : ℚ) (descr cat : Option String)
    (date ty : String) (pm tags : Option String) (db : DB) : DB :=
  { db with
    transactions := db.transactions.map (fun p =>
      if p.1 = tid ∧ p.2.userId = uid then
        (p.1, ⟨uid, amount, blankToNone descr, blankToNone cat, date, ty,
          blankToNone pm, blankToNone tags⟩)
      else p) }

/-- Embeds `delete_transaction` (`src/db.py`): `DELETE ... WHERE id = ?
AND user_id = ?`. -/
def delete_transaction (tid uid : Nat) (db : DB) : DB :=
  { db with
    transactions := db.transactions.filter (fun p =>
      ¬(p.1 = tid ∧ p.2.userId = uid)) }

/-- The consecutive AUTOINCREMENT ids handed out by the share-insert loop
of `add_group_expense` (`src/db.py`): one row per entry of the `shares`
argument, inserted in list order with ids `startId, startId+1, ...`,
each row initially unsettled. -/
def mkShares (eid : Nat) : Nat → List (Nat × ℚ) → List (Nat × ExpenseShare)
  | _, [] => []
  | startId, e :: rest =>
      (startId, ⟨eid, e.1, e.2, false, none⟩) :: mkShares eid (startId + 1) rest

/-- Embeds `add_group_expense` (`src/db.py`): inserts the expense row
(initially unsettled) and then one share row per entry of `shares`,
with no validation of any kind; returns the new expense id. -/
def add_group_expense (title : String) (amount : ℚ) (payerId : Nat)
    (category date description : String) (shares : List (Nat × ℚ))
    (db : DB) : Nat × DB :=
  (db.nextExpenseId,
    { db with
      groupExpenses := db.groupExpenses ++
        [(db.nextExpenseId,
          ⟨title, amount, payerId, category, date, description, false, none⟩)],
      shares := db.shares ++ mkShares db.nextExpenseId db.nextShareId shares,
      nextExpenseId := db.nextExpenseId + 1,
      nextShareId := db.nextShareId + shares.length })

/-- One result row of the `get_group_expenses` query (`src/db.py`): a join
of a group expense, its payer's user row, and one of its shares. -/
structure GroupExpenseRow where
  expenseId : Nat
  title : String
  amount : ℚ
  category : String
  date : String
  description : String
  payerId : Nat
  isSettled : Bool
  settledAt : Option Nat
  payerName : String
  shareId : Nat
  userId : Nat
  shareAmount : ℚ
  shareSettled : Bool
  shareSettledAt : Option Nat
  deriving DecidableEq

/-- One joined result row of the `get_group_expenses` SELECT list: the
expense's columns, the payer's name, and the share's columns, exactly as
aliased in the query. -/
def rowOf (p : Nat × GroupExpense) (pu : Nat × User) (q : Nat × ExpenseShare) :
    GroupExpenseRow :=
  ⟨p.1, p.2.title, p.2.amount, p.2.category, p.2.date, p.2.description,
    p.2.payerId, p.2.isSettled, p.2.settledAt, pu.2.name, q.1, q.2.userId,
    q.2.shareAmount, q.2.isSettled, q.2.settledAt⟩

/-- Embeds the `get_group_expenses` query (`src/db.py`): inner join of
`group_expenses` with `users` (on the payer) and with
`group_expense_shares` (on the expense id), filtered by
`ges.user_id = ? OR ge.payer_id = ?`.  The query's `ORDER BY date DESC,
id DESC` clause only permutes the result rows and is omitted here; every
property proved about the result is permutation-invariant. -/
def get_group_expenses (uid : Nat) (db : DB) : List GroupExpenseRow :=
  db.groupExpenses.flatMap (fun p =>
    match db.users.find? (fun u => u.1 = p.2.payerId) with
    | none => []
    | some pu =>
        db.shares.filterMap (fun q =>
          if q.2.groupExpenseId = p.1 ∧ (q.2.userId = uid ∨ p.2.payerId = uid)
          then some (rowOf p pu q) else none))

/-- The share UPDATE performed by step 1 of `settle_expense_share`
(`src/db.py`): `SET is_settled = 1, settled_at = datetime('now') WHERE
id = ? AND user_id = ?`, applied to one row of the share table. -/
def shareUpd (sid uid now : Nat) (p : Nat × ExpenseShare) : Nat × ExpenseShare :=
  if p.1 = sid ∧ p.2.userId = uid then
    (p.1, { p.2 with isSettled := true, settledAt := some now })
  else p

/-- Embeds `settle_expense_share` (`src/db.py`): (1) settle the share
owned by the caller, (2) look the share up by id alone to find its
expense, (3) if no share of that expense is still pending, stamp the
whole expense settled. -/
def settle_expense_share (sid uid now : Nat) (db : DB) : DB :=
  let shares1 := db.shares.map (shareUpd sid uid now)
  match shares1.find? (fun q => q.1 = sid) with
  | none => { db with shares := shares1 }
  | some q =>
      let geid := q.2.groupExpenseId
      if (shares1.filter (fun r =>
            r.2.groupExpenseId = geid ∧ r.2.isSettled = false)).length = 0 then
        { db with
          shares := shares1,
          groupExpenses := db.groupExpenses.map (fun p =>
            if p.1 = geid then
              (p.1, { p.2 with isSettled := true, settledAt := some now })
            else p) }
      else { db with shares := shares1 }

/-- Embeds `set_budget` (`src/db.py`): `INSERT ... ON CONFLICT(user_id,
year_month, category) DO UPDATE SET amount = excluded.amount`.  SQLite
UNIQUE constraints treat NULLs as distinct from every value including
NULL, so a row whose category is NULL never conflicts and the insert
always goes through; only a non-NULL category can hit the conflict
clause and overwrite the existing amount. -/
def set_budget (uid : Nat) (ym : String) (cat : Option String) (amount : ℚ)
    (db : DB) : DB :=
  match cat with
  | none => { db with budgets := db.budgets ++ [⟨uid, ym, none, amount⟩] }
  | some c =>
      if db.budgets.any (fun b =>
          b.userId = uid ∧ b.yearMonth = ym ∧ b.category = some c) then
        { db with budgets := db.budgets.map (fun b =>
          if b.userId = uid ∧ b.yearMonth = ym ∧ b.category = some c then
            { b with amount := amount }
          else b) }
      else { db with budgets := db.budgets ++ [⟨uid, ym, some c, amount⟩] }

/-- Embeds `get_budget` (`src/db.py`): `SELECT amount ... WHERE user_id =
? AND year_month = ? AND category IS ?` followed by `fetchone()`, i.e.
the first matching row in rowid order. -/
def get_budget (uid : Nat) (ym : String) (cat : Option String) (db : DB) :
    Option ℚ :=
  (db.budgets.find? (fun b =>
    b.userId = uid ∧ b.yearMonth = ym ∧ b.category = cat)).map Budget.amount

/-- Embeds the equal-split share construction of
`src/pages/4_👥_Group_Expenses.py` lines 38-43: one share of
`amount / (N+1)` per selected user, then one for the current user
(the payer). -/
def equalSplitShares (amount : ℚ) (selected : List Nat) (payerId : Nat) :
    List (Nat × ℚ) :=
  let s := amount / (selected.length + 1)
  selected.map (fun u => (u, s)) ++ [(payerId, s)]

/-- Embeds the custom-split share construction of
`src/pages/4_👥_Group_Expenses.py` lines 45-61: only strictly positive
entered amounts are kept, and the payer receives the remainder
`amount - total` only when it is strictly positive. -/
def customSplitShares (amount : ℚ) (entries : List (Nat × ℚ)) (payerId : Nat) :
    List (Nat × ℚ) :=
  let explicit := entries.filter (fun e => 0 < e.2)
  let remaining := amount - (explicit.map Prod.snd).sum
  explicit ++ (if 0 < remaining then [(payerId, remaining)] else [])

/-- Embeds the owed/paid aggregation of
`src/pages/4_👥_Group_Expenses.py` lines 93-102: one pass over the query
rows; a row whose payer is not the current user adds its `share_amount`
to `total_owed` when the row's expense-level `is_settled` flag is unset,
and a row whose payer is the current user adds the full expense `amount`
to `total_paid`. -/
def computeTotals (uid : Nat) (rows : List GroupExpenseRow) : ℚ × ℚ :=
  rows.foldl (fun acc r =>
    if r.payerId ≠ uid then
      if r.isSettled = false then (acc.1 + r.shareAmount, acc.2) else acc
    else (acc.1, acc.2 + r.amount)) (0, 0)

/-- Round a rational to the nearest integer, ties to even: the rounding
used by IEEE-754 binary64 arithmetic, which is what Python floats run on. -/
def rne (q : ℚ) : ℤ :=
  let n := ⌊q⌋
  let r := q - n
  if r < 1/2 then n
  else if 1/2 < r then n + 1
  else if n % 2 = 0 then n else n + 1

/-- Fuel-driven floor of the base-2 logarithm of a natural number. -/
def flog2 : Nat → Nat → Nat
  | 0, _ => 0
  | fuel + 1, n => if n < 2 then 0 else flog2 fuel (n / 2) + 1

/-- Correctly-rounded IEEE-754 binary64 value of a rational, for the
normal range `1 ≤ q` (every value arising in the modelled Python
computation lies there; below 1 the function is the unused identity):
the significand is rounded to 53 bits, ties to even.  Python floats are
binary64, and each arithmetic operation on them is correctly rounded. -/
def fl (q : ℚ) : ℚ :=
  if q < 1 then q
  else
    let e : ℤ := flog2 ⌊q⌋₊ ⌊q⌋₊
    ((rne (q * (2 : ℚ) ^ ((52 : ℤ) - e)) : ℚ) * (2 : ℚ) ^ (e - 52))

/-- Python's `sum(...)` over a list of binary64 floats: a left fold of
correctly-rounded additions starting from 0.  This is the quantity the
form-submit validation of `src/pages/4_👥_Group_Expenses.py` line 66
compares against the entered total. -/
def pySum (l : List ℚ) : ℚ := l.foldl (fun a x => fl (a + x)) 0

/-- The equal-split shares as the Python code actually computes them
(`src/pages/4_👥_Group_Expenses.py` lines 38-43): the one float division
`amount / (len(selected_users) + 1)` is correctly rounded to binary64,
and every share receives that same rounded value. -/
def equalSplitSharesF (amount : ℚ) (selected : List Nat) (payerId : Nat) :
    List (Nat × ℚ) :=
  let s := fl (amount / (selected.length + 1))
  selected.map (fun u => (u, s)) ++ [(payerId, s)]

/-- The expense-level settlement flag of a given expense id, as stored. -/
def expenseSettledFlag (db : DB) (eid : Nat) : Option Bool :=
  (db.groupExpenses.find? (fun p => p.1 = eid)).map (fun p => p.2.isSettled)

/-- Concrete scenario state: users Pat (id 1), Alice (id 2), Bob (id 3). -/
def usersPAB : DB :=
  (create_user "Bob" "b@x" "h"
    (create_user "Alice" "a@x" "h"
      (create_user "Pat" "p@x" "h" DB.empty).2).2).2

/-- The equal-split shares of the 300-rupee dinner scenario: participants
Alice (2) and Bob (3), payer Pat (1). -/
def dinnerShares : List (Nat × ℚ) := equalSplitShares 300 [2, 3] 1

/-- The store right after Pat adds the 300-rupee dinner split equally with
Alice and Bob: expense id 1; share ids 1 (Alice), 2 (Bob), 3 (Pat). -/
def dinnerDb : DB :=
  (add_group_expense "Dinner" 300 1 "Food" "2024-05-01" "trip" dinnerShares
    usersPAB).2

/-- The store after Alice settles her share. -/
def dinnerAfterA : DB := settle_expense_share 1 2 10 dinnerDb

/-- The store after Alice and then Bob settle their shares. -/
def dinnerAfterB : DB := settle_expense_share 2 3 20 dinnerAfterA

/-- The store after Alice, Bob and finally the payer Pat settle their
shares. -/
def dinnerAfterP : DB := settle_expense_share 3 1 30 dinnerAfterB

/-- Concrete one-share expense: payer 1, a single 50-rupee share owned by
user 2, already settled at time 0 (which also settles the expense). -/
def settledDb : DB :=
  settle_expense_share 1 2 0
    (add_group_expense "Solo" 50 1 "Misc" "2024-01-02" ""
      [(2, 50)] usersPAB).2

/-- Concrete budgets store: the overall (NULL-category) budget of user 1
for 2024-01 set to 100 and then re-set to 200. -/
def budgetsDb : DB :=
  set_budget 1 "2024-01" none 200 (set_budget 1 "2024-01" none 100 DB.empty)

/-- The states of the store reachable through the mutating operations of
`src/db.py` from a freshly initialised database. -/
inductive Reachable : DB → Prop
  | init : Reachable DB.empty
  | create_user (name email passwordHash : String) {db : DB} :
      Reachable db → Reachable (create_user name email passwordHash db).2
  | update_user_password (uid : Nat) (newHash : String) {db : DB} :
      Reachable db → Reachable (update_user_password uid newHash db)
  | add_transaction (uid : Nat) (amount : ℚ) (descr cat : Option String)
      (date ty : String) (pm tags : Option String) {db : DB} :
      Reachable db →
      Reachable (add_transaction uid amount descr cat date ty pm tags db).2
  | update_transaction (tid uid : Nat) (amount : ℚ)
      (descr cat : Option String) (date ty : String)
      (pm tags : Option String) {db : DB} :
      Reachable db →
      Reachable (update_transaction tid uid amount descr cat date ty pm tags db)
  | delete_transaction (tid uid : Nat) {db : DB} :
      Reachable db → Reachable (delete_transaction tid uid db)
  | add_group_expense (title : String) (amount : ℚ) (payerId : Nat)
      (category date description : String) (shares : List (Nat × ℚ)) {db : DB} :
      Reachable db →
      Reachable (add_group_expense title amount payerId category date
        description shares db).2
  | settle_expense_share (sid uid now : Nat) {db : DB} :
      Reachable db → Reachable (settle_expense_share sid uid now db)
  | set_budget (uid : Nat) (ym : String) (cat : Option String) (amount : ℚ)
      {db : DB} :
      Reachable db → Reachable (set_budget uid ym cat amount db)

/-- Follows the words of claim C4 (spec reading, for comparison with the
code): `totalPaid` as the sum of the full expense amounts over the group
expenses whose payer is the user, each expense counted exactly once
regardless of how many shares it has. -/
def paidOncePerExpense (uid : Nat) (db : DB) : ℚ :=
  ((db.groupExpenses.filter (fun p => p.2.payerId = uid)).map
    (fun p => p.2.amount)).sum

/-- Claim C2, counterexample: in the concrete 300-rupee equal-split run
(payer Pat, participants Alice and Bob), after Alice and then Bob settle
their shares the expense is NOT settled — the payer's own 100-rupee
share is still pending, contrary to the claim that the expense becomes
Settled at that point. -/
theorem c2_expense_not_settled_after_A_and_B :
    expenseSettledFlag dinnerAfterB 1 ≠ some true := by
  with_unfolding_all decide

set_option maxRecDepth 100000 in
/-- Claim C2, amended: equal split of 300 over payer Pat (1) and
participants Alice (2), Bob (3) yields shares of 100 each; the expense
is Pending after creation, still Pending after Alice settles, STILL
Pending after Bob settles (the payer's own share remains open), and
becomes Settled only once Pat also settles Pat's own share. -/
theorem c2_equal_split_settlement_run :
    dinnerShares = [(2, 100), (3, 100), (1, 100)] ∧
    expenseSettledFlag dinnerDb 1 = some false ∧
    expenseSettledFlag dinnerAfterA 1 = some false ∧
    expenseSettledFlag dinnerAfterB 1 = some false ∧
    expenseSettledFlag dinnerAfterP 1 = some true := by
  with_unfolding_all decide

set_option maxRecDepth 100000 in
/-- Claim C3, failing input: after Alice settles her 100-rupee share of
the dinner expense, every share owned by Alice is settled, yet the
aggregator still reports `totalOwed = 100` for Alice (and `totalPaid =
0`), because the page tests the expense-level `is_settled` flag of the
row (`exp["is_settled"]`) instead of the share's own `share_settled`
flag. -/
theorem c3_totalOwed_uses_expense_flag :
    (∀ q ∈ dinnerAfterA.shares, q.2.userId = 2 → q.2.isSettled = true) ∧
    computeTotals 2 (get_group_expenses 2 dinnerAfterA) = (100, 0) := by
  with_unfolding_all decide

set_option maxRecDepth 100000 in
/-- Claim C4, counterexample: for the payer Pat of the 300-rupee dinner
with three shares, the aggregator's `totalPaid` is 900 — the query
returns one row per share and the page adds the full `amount` for every
such row — not the 300 that counting each expense once would give. -/
theorem c4_totalPaid_counted_per_row :
    (computeTotals 1 (get_group_expenses 1 dinnerDb)).2 ≠
      paidOncePerExpense 1 dinnerDb := by
  with_unfolding_all decide

set_option maxRecDepth 1000000 in
/-- Claim C5, failing input evaluated: an equal split of 100 among the
payer and five other participants produces six shares of
`fl (100/6) = 16.666666666666668`, and Python's float sum of those six
shares is `100.00000000000001 ≠ 100.0`, so the exact-equality
pre-persistence validation of the form rejects a perfectly valid
equal-split input. -/
theorem c5_equal_split_validation_rejects_six_way_100 :
    (equalSplitSharesF 100 [2, 3, 4, 5, 6] 1).length = 6 ∧
    pySum ((equalSplitSharesF 100 [2, 3, 4, 5, 6] 1).map Prod.snd) ≠ 100 := by
  with_unfolding_all decide

/-- Claim C7, counterexample: share 1 of `settledDb` is owned by user 2
and already settled (at time 0); a second `settle_expense_share` call by
the same owner at time 7 changes the state — it re-stamps the share's
(and the settled expense's) `settled_at` to the new time — so the second
call is not free of state changes. -/
theorem c7_second_settle_changes_state :
    settle_expense_share 1 2 7 settledDb ≠ settledDb := by
  with_unfolding_all decide

/-- Claim C8, counterexample: share 1 of `settledDb` exists but is owned
by user 2, not by the acting user 99; the expense's shares are all
settled, so the foreign `settle_expense_share` call still re-stamps the
parent expense's `settled_at`, changing the store state. -/
theorem c8_foreign_settle_changes_state :
    settle_expense_share 1 99 7 settledDb ≠ settledDb := by
  with_unfolding_all decide

/-- Claim C9, failing input evaluated: setting the overall (NULL
category) budget of user 1 for 2024-01 to 100 and then to 200 leaves TWO
rows for that key — SQLite UNIQUE treats NULLs as distinct, so the
upsert's conflict clause never fires — and `get_budget` then returns the
first-inserted 100, not the most recently set 200. -/
theorem c9_null_category_budget_duplicates :
    (budgetsDb.budgets.filter (fun b =>
      b.userId = 1 ∧ b.yearMonth = "2024-01" ∧ b.category = none)).length = 2 ∧
    get_budget 1 "2024-01" none budgetsDb = some 100 := by
  with_unfolding_all decide

/-- Dropping the zero entries (the only non-positive ones possible, since
the form inputs have `min_value=0.0`) does not change the sum of the
entered custom shares. -/
theorem sum_filter_pos_of_nonneg (entries : List (Nat × ℚ))
    (h : ∀ e ∈ entries, 0 ≤ e.2) :
    ((entries.filter (fun e => 0 < e.2)).map Prod.snd).sum =
      (entries.map Prod.snd).sum := by
  induction entries with
  | nil => simp
  | cons e rest ih =>
    have he := h e (List.mem_cons_self ..)
    have hr : ∀ x ∈ rest, 0 ≤ x.2 := fun x hx => h x (List.mem_cons_of_mem _ hx)
    by_cases hp : 0 < e.2
    · simp [List.filter_cons, hp, ih hr]
    · have h0 : e.2 = 0 := le_antisymm (not_lt.1 hp) he
      simp [List.filter_cons, hp, ih hr, h0]

/-- Claim C6: for nonnegative entered amounts (the form enforces
`min_value=0.0`), when the explicitly entered participant shares sum to
strictly less than the total, the custom split appends a payer entry
equal to `total - sum(explicit)`; when they sum to the total or more, no
payer entry is produced. -/
theorem c6_custom_split_payer_remainder (amount : ℚ)
    (entries : List (Nat × ℚ)) (payerId : Nat)
    (h : ∀ e ∈ entries, 0 ≤ e.2) :
    ((entries.map Prod.snd).sum < amount →
      customSplitShares amount entries payerId =
        entries.filter (fun e => 0 < e.2) ++
          [(payerId, amount - (entries.map Prod.snd).sum)]) ∧
    (amount ≤ (entries.map Prod.snd).sum →
      customSplitShares amount entries payerId =
        entries.filter (fun e => 0 < e.2)) := by
  have hdef : customSplitShares amount entries payerId =
      entries.filter (fun e => 0 < e.2) ++
        (if 0 < amount - ((entries.filter (fun e => 0 < e.2)).map Prod.snd).sum
         then [(payerId,
            amount - ((entries.filter (fun e => 0 < e.2)).map Prod.snd).sum)]
         else []) := rfl
  rw [hdef, sum_filter_pos_of_nonneg entries h]
  constructor
  · intro hlt
    rw [if_pos (by linarith)]
  · intro hge
    rw [if_neg (by linarith)]
    simp

/-- Witness for `c6_custom_split_payer_remainder`: with total 300 and
entered shares 120 (kept) and 0 (dropped), the payer receives the
remainder 180; with total 100 fully assigned to one participant, no
payer entry is created. -/
theorem c6_witness :
    customSplitShares 300 [(2, 120), (3, 0)] 1 = [(2, 120), (1, 180)] ∧
    customSplitShares 100 [(2, 100)] 1 = [(2, 100)] := by
  constructor
  · exact ((c6_custom_split_payer_remainder 300 [(2, 120), (3, 0)] 1
      (by with_unfolding_all decide)).1
        (by with_unfolding_all decide)).trans (by with_unfolding_all decide)
  · exact ((c6_custom_split_payer_remainder 100 [(2, 100)] 1
      (by with_unfolding_all decide)).2
        (by with_unfolding_all decide)).trans (by with_unfolding_all decide)

/-- The share-insert loop creates one row per entry of its input. -/
theorem mkShares_length (eid : Nat) :
    ∀ (s : Nat) (l : List (Nat × ℚ)), (mkShares eid s l).length = l.length := by
  intro s l
  induction l generalizing s with
  | nil => rfl
  | cons e rest ih => simp [mkShares, ih]

/-- The i-th row created by the share-insert loop carries id `startId + i`
and exactly the i-th requested (user, amount) pair, initially unsettled. -/
theorem mkShares_getElem? (eid : Nat) :
    ∀ (l : List (Nat × ℚ)) (s i : Nat) (e : Nat × ℚ), l[i]? = some e →
      (mkShares eid s l)[i]? = some (s + i, ⟨eid, e.1, e.2, false, none⟩) := by
  intro l
  induction l with
  | nil => intro s i e h; simp at h
  | cons x rest ih =>
    intro s i e h
    cases i with
    | zero =>
      simp at h
      subst h
      simp [mkShares]
    | succ n =>
      simp at h
      have := ih (s + 1) n e h
      simp [mkShares, this]
      omega

/-- Claim C10: the store operation `add_group_expense` enforces no
validation on its `shares` argument whatsoever — for EVERY shares list
(empty, not summing to the total, non-positive entries included) it
returns the fresh expense id, appends exactly the one new expense row
(unsettled), and appends exactly one share row per given entry, with
consecutive fresh ids, the new expense's id, the given user and amount,
and an unsettled flag; all other tables are untouched. -/
theorem c10_add_group_expense_no_validation (title : String) (amount : ℚ)
    (payerId : Nat) (category date description : String)
    (shares : List (Nat × ℚ)) (db : DB) :
    (add_group_expense title amount payerId category date description
        shares db).1 = db.nextExpenseId ∧
    (add_group_expense title amount payerId category date description
        shares db).2.groupExpenses = db.groupExpenses ++
      [(db.nextExpenseId,
        ⟨title, amount, payerId, category, date, description, false, none⟩)] ∧
    (add_group_expense title amount payerId category date description
        shares db).2.shares.length = db.shares.length + shares.length ∧
    (∀ i : Nat, i < db.shares.length →
      (add_group_expense title amount payerId category date description
        shares db).2.shares[i]? = db.shares[i]?) ∧
    (∀ (i : Nat) (e : Nat × ℚ), shares[i]? = some e →
      (add_group_expense title amount payerId category date description
        shares db).2.shares[db.shares.length + i]? =
        some (db.nextShareId + i,
          ⟨db.nextExpenseId, e.1, e.2, false, none⟩)) ∧
    (add_group_expense title amount payerId category date description
        shares db).2.transactions = db.transactions ∧
    (add_group_expense title amount payerId category date description
        shares db).2.budgets = db.budgets ∧
    (add_group_expense title amount payerId category date description
        shares db).2.users = db.users := by
  refine ⟨rfl, rfl, ?_, ?_, ?_, rfl, rfl, rfl⟩
  · simp [add_group_expense, mkShares_length]
  · intro i hi
    simp [add_group_expense, List.getElem?_append_left hi]
  · intro i e he
    have hlen : db.shares.length ≤ db.shares.length + i := Nat.le_add_right ..
    simp only [add_group_expense, List.getElem?_append_right hlen,
      Nat.add_sub_cancel_left]
    exact mkShares_getElem? db.nextExpenseId shares db.nextShareId i e he

/-- Witness for `c10_add_group_expense_no_validation`, at a shares list
that an equal or custom split could never produce (empty total mismatch
and a zero amount): the store persists it as given. -/
theorem c10_witness :
    (add_group_expense "X" 500 1 "C" "2024-02-02" "d" [(2, 0), (3, 7)]
        dinnerDb).2.shares[dinnerDb.shares.length + 1]? =
      some (dinnerDb.nextShareId + 1, ⟨dinnerDb.nextExpenseId, 3, 7, false, none⟩) :=
  (c10_add_group_expense_no_validation "X" 500 1 "C" "2024-02-02" "d"
    [(2, 0), (3, 7)] dinnerDb).2.2.2.2.1 1 (3, 7) (by with_unfolding_all decide)

/-- Closed form of the page's single-pass aggregation: `total_owed` is
the sum of `share_amount` over the rows whose payer is not the user and
whose expense-level flag is unset, and `total_paid` is the sum of the
full `amount` over the rows whose payer is the user. -/
theorem computeTotals_eq (uid : Nat) (rows : List GroupExpenseRow) :
    computeTotals uid rows =
      (((rows.filter (fun r => r.payerId ≠ uid ∧ r.isSettled = false)).map
          (fun r => r.shareAmount)).sum,
       ((rows.filter (fun r => r.payerId = uid)).map (fun r => r.amount)).sum) := by
  suffices h : ∀ acc : ℚ × ℚ,
      rows.foldl (fun acc r =>
        if r.payerId ≠ uid then
          if r.isSettled = false then (acc.1 + r.shareAmount, acc.2) else acc
        else (acc.1, acc.2 + r.amount)) acc =
      (acc.1 + ((rows.filter (fun r => r.payerId ≠ uid ∧ r.isSettled = false)).map
          (fun r => r.shareAmount)).sum,
       acc.2 + ((rows.filter (fun r => r.payerId = uid)).map
          (fun r => r.amount)).sum) by
    simpa [computeTotals] using h (0, 0)
  induction rows with
  | nil => intro acc; simp
  | cons r rest ih =>
    intro acc
    rw [List.foldl_cons, ih]
    by_cases h1 : r.payerId = uid
    · simp [List.filter_cons, h1, add_assoc]
    · by_cases h2 : r.isSettled = false
      · simp [List.filter_cons, h1, h2, add_assoc]
      · simp [List.filter_cons, h1, h2]

/-- Filtering then mapping a concatenation of blocks sums block by
block. -/
theorem sum_map_filter_flatMap {α : Type} (l : List α)
    (f : α → List GroupExpenseRow) (P : GroupExpenseRow → Bool)
    (g : GroupExpenseRow → ℚ) :
    (((l.flatMap f).filter P).map g).sum =
      (l.map (fun x => (((f x).filter P).map g).sum)).sum := by
  induction l with
  | nil => rfl
  | cons x rest ih => simp [List.filter_append, ih]

/-- Summing an if-then-else over a list is summing over the filtered
list. -/
theorem sum_map_ite_filter {α : Type} (l : List α) (P : α → Prop)
    [DecidablePred P] (g : α → ℚ) :
    (l.map (fun x => if P x then g x else 0)).sum =
      ((l.filter (fun x => P x)).map g).sum := by
  induction l with
  | nil => rfl
  | cons x rest ih =>
    by_cases hx : P x
    · simp [List.filter_cons, hx, ih]
    · simp [List.filter_cons, hx, ih]

/-- For an expense the user paid, the paid-column sum over its joined
block is the expense amount times its number of shares: the join keeps
every share row of the expense and every row repeats the full amount. -/
theorem paid_block_of_payer (uid : Nat) (p : Nat × GroupExpense)
    (pu : Nat × User) (hp : p.2.payerId = uid) :
    ∀ L : List (Nat × ExpenseShare),
      (((L.filterMap (fun q =>
          if q.2.groupExpenseId = p.1 ∧ (q.2.userId = uid ∨ p.2.payerId = uid)
          then some (rowOf p pu q) else none)).filter
            (fun r => r.payerId = uid)).map (fun r => r.amount)).sum =
        p.2.amount * ((L.filter (fun q => q.2.groupExpenseId = p.1)).length : ℚ) := by
  intro L
  induction L with
  | nil => simp
  | cons q rest ih =>
    rw [List.filterMap_cons]
    by_cases hc : q.2.groupExpenseId = p.1 ∧ (q.2.userId = uid ∨ p.2.payerId = uid)
    · rw [if_pos hc, List.filter_cons_of_pos (by simp [rowOf, hp]),
        List.map_cons, List.sum_cons, ih,
        List.filter_cons_of_pos (by simp [hc.1]), List.length_cons]
      have hra : (rowOf p pu q).amount = p.2.amount := rfl
      rw [hra]
      push_cast
      ring
    · have hgq : ¬q.2.groupExpenseId = p.1 := fun hgq => hc ⟨hgq, Or.inr hp⟩
      rw [if_neg hc, ih, List.filter_cons_of_neg (by simp [hgq])]

/-- For an expense the user did not pay, no joined row of its block
survives the payer filter. -/
theorem paid_block_of_other (uid : Nat) (p : Nat × GroupExpense)
    (pu : Nat × User) (hp : ¬p.2.payerId = uid) :
    ∀ L : List (Nat × ExpenseShare),
      ((L.filterMap (fun q =>
          if q.2.groupExpenseId = p.1 ∧ (q.2.userId = uid ∨ p.2.payerId = uid)
          then some (rowOf p pu q) else none)).filter
            (fun r => r.payerId = uid)) = [] := by
  intro L
  induction L with
  | nil => rfl
  | cons q rest ih =>
    rw [List.filterMap_cons]
    by_cases hc : q.2.groupExpenseId = p.1 ∧ (q.2.userId = uid ∨ p.2.payerId = uid)
    · rw [if_pos hc, List.filter_cons_of_neg (by simp [rowOf, hp])]
      exact ih
    · rw [if_neg hc]
      exact ih

/-- Claim C4, amended: `totalPaid` equals, over the group expenses whose
payer is the user (and whose payer row exists for the join), the full
expense amount multiplied by the expense's number of shares — i.e. the
amount once per joined share row, regardless of settlement state — not
once per expense. -/
theorem c4_totalPaid_amount_times_share_count (uid : Nat) (db : DB) :
    (computeTotals uid (get_group_expenses uid db)).2 =
      ((db.groupExpenses.filter (fun p =>
          p.2.payerId = uid ∧
            (db.users.find? (fun u => u.1 = p.2.payerId)).isSome)).map
        (fun p => p.2.amount *
          ((db.shares.filter
            (fun q => q.2.groupExpenseId = p.1)).length : ℚ))).sum := by
  rw [computeTotals_eq]
  dsimp only
  simp only [get_group_expenses]
  rw [sum_map_filter_flatMap, ← sum_map_ite_filter]
  congr 1
  refine List.map_congr_left (fun p _ => ?_)
  cases hfind : db.users.find? (fun u => u.1 = p.2.payerId) with
  | none =>
      simp
  | some pu =>
      by_cases hp : p.2.payerId = uid
      · rw [paid_block_of_payer uid p pu hp db.shares, if_pos ⟨hp, rfl⟩]
      · rw [paid_block_of_other uid p pu hp db.shares,
          if_neg (fun h => hp h.1)]
        simp

/-- A share row with its `settled_at` timestamp erased. -/
def scrubShare (p : Nat × ExpenseShare) : Nat × ExpenseShare :=
  (p.1, { p.2 with settledAt := none })

/-- An expense row with its `settled_at` timestamp erased. -/
def scrubExpense (p : Nat × GroupExpense) : Nat × GroupExpense :=
  (p.1, { p.2 with settledAt := none })

/-- The store with every `settled_at` timestamp erased: two stores with
equal scrubs differ at most in settlement timestamps. -/
def scrub (db : DB) : DB :=
  { db with
    shares := db.shares.map scrubShare,
    groupExpenses := db.groupExpenses.map scrubExpense }

/-- The expense has at least one share row. -/
def hasShare (db : DB) (eid : Nat) : Prop :=
  ∃ q ∈ db.shares, q.2.groupExpenseId = eid

/-- Every share row of the expense is settled. -/
def allSharesSettled (db : DB) (eid : Nat) : Prop :=
  ∀ q ∈ db.shares, q.2.groupExpenseId = eid → q.2.isSettled = true

/-- The settlement invariant of claim C1: a group expense with at least
one share is flagged settled exactly when all of its shares are. -/
def settledInv (db : DB) : Prop :=
  ∀ p ∈ db.groupExpenses, hasShare db p.1 →
    (p.2.isSettled = true ↔ allSharesSettled db p.1)

instance hasShareDecidable (db : DB) (eid : Nat) : Decidable (hasShare db eid) := by
  unfold hasShare
  exact inferInstance

instance allSharesSettledDecidable (db : DB) (eid : Nat) :
    Decidable (allSharesSettled db eid) := by
  unfold allSharesSettled
  exact inferInstance

instance settledInvDecidable (db : DB) : Decidable (settledInv db) := by
  unfold settledInv
  exact inferInstance

/-- Primary keys are unique in a well-formed table: two rows with the
same key are the same row. -/
theorem eq_of_mem_of_nodup_keys {α : Type} {l : List (Nat × α)}
    (hnd : (l.map Prod.fst).Nodup) {a b : Nat × α}
    (ha : a ∈ l) (hb : b ∈ l) (hab : a.1 = b.1) : a = b := by
  induction l with
  | nil => cases ha
  | cons x rest ih =>
    rw [List.map_cons, List.nodup_cons] at hnd
    rcases List.mem_cons.1 ha with rfl | ha2
    · rcases List.mem_cons.1 hb with rfl | hb2
      · rfl
      · exact absurd (hab ▸ List.mem_map_of_mem Prod.fst hb2) hnd.1
    · rcases List.mem_cons.1 hb with rfl | hb2
      · exact absurd (hab ▸ List.mem_map_of_mem Prod.fst ha2) hnd.1
      · exact ih hnd.2 ha2 hb2

theorem shareUpd_fst (sid uid now : Nat) (p : Nat × ExpenseShare) :
    (shareUpd sid uid now p).1 = p.1 := by
  unfold shareUpd
  split <;> rfl

theorem shareUpd_geid (sid uid now : Nat) (p : Nat × ExpenseShare) :
    (shareUpd sid uid now p).2.groupExpenseId = p.2.groupExpenseId := by
  unfold shareUpd
  split <;> rfl

theorem shareUpd_settled_of (sid uid now : Nat) (p : Nat × ExpenseShare)
    (h : p.2.isSettled = true) :
    (shareUpd sid uid now p).2.isSettled = true := by
  unfold shareUpd
  split
  · rfl
  · exact h

theorem shareUpd_of_not (sid uid now : Nat) (p : Nat × ExpenseShare)
    (h : ¬(p.1 = sid ∧ p.2.userId = uid)) : shareUpd sid uid now p = p :=
  if_neg h

theorem shareUpd_of_ne_fst (sid uid now : Nat) (p : Nat × ExpenseShare)
    (h : p.1 ≠ sid) : shareUpd sid uid now p = p :=
  shareUpd_of_not sid uid now p (fun hc => h hc.1)

/-- Re-marking an already settled share only moves its timestamp: after
scrubbing timestamps the two rows agree. -/
theorem scrubShare_upd (q : Nat × ExpenseShare) (now : Nat)
    (h : q.2.isSettled = true) :
    scrubShare (q.1, { q.2 with isSettled := true, settledAt := some now }) =
      scrubShare q := by
  obtain ⟨n, sh⟩ := q
  cases sh
  simp_all [scrubShare]

/-- Re-marking an already settled expense only moves its timestamp. -/
theorem scrubExpense_upd (p : Nat × GroupExpense) (now : Nat)
    (h : p.2.isSettled = true) :
    scrubExpense (p.1, { p.2 with isSettled := true, settledAt := some now }) =
      scrubExpense p := by
  obtain ⟨n, ge⟩ := p
  cases ge
  simp_all [scrubExpense]

/-- If the named share exists, the lookup in step 2 of
`settle_expense_share` finds a row with that id. -/
theorem find?_shares1_some (sid uid now : Nat) (db : DB) (s : ExpenseShare)
    (hmem : (sid, s) ∈ db.shares) :
    ∃ w, (db.shares.map (shareUpd sid uid now)).find? (fun r => r.1 = sid) =
        some w ∧
      w ∈ db.shares.map (shareUpd sid uid now) ∧ w.1 = sid := by
  cases hfind : (db.shares.map (shareUpd sid uid now)).find?
      (fun r => r.1 = sid) with
  | none =>
      exfalso
      have hmem1 : shareUpd sid uid now (sid, s) ∈
          db.shares.map (shareUpd sid uid now) :=
        List.mem_map_of_mem _ hmem
      have := List.find?_eq_none.1 hfind _ hmem1
      simp [shareUpd_fst] at this
  | some w =>
      refine ⟨w, rfl, List.mem_of_find?_eq_some hfind, ?_⟩
      simpa using List.find?_some hfind

/-- With unique share ids, the row found by the lookup is the updated
version of the named share. -/
theorem found_share_eq (sid uid now : Nat) (db : DB) (s : ExpenseShare)
    (hnd : (db.shares.map Prod.fst).Nodup)
    (hmem : (sid, s) ∈ db.shares) {w : Nat × ExpenseShare}
    (hw : w ∈ db.shares.map (shareUpd sid uid now)) (hw1 : w.1 = sid) :
    w = shareUpd sid uid now (sid, s) := by
  obtain ⟨q0, hq0, rfl⟩ := List.mem_map.1 hw
  have hq01 : q0.1 = sid := by rw [← shareUpd_fst sid uid now q0, hw1]
  rw [eq_of_mem_of_nodup_keys hnd hq0 hmem hq01]

/-- An empty pending filter means every share of the expense is
settled. -/
theorem allSettled_of_filter_empty (L : List (Nat × ExpenseShare))
    (geid : Nat)
    (h : (L.filter (fun r =>
        r.2.groupExpenseId = geid ∧ r.2.isSettled = false)).length = 0) :
    ∀ r ∈ L, r.2.groupExpenseId = geid → r.2.isSettled = true := by
  intro r hr hg
  by_contra hs
  have hs' : r.2.isSettled = false := by
    cases hrs : r.2.isSettled
    · rfl
    · exact absurd hrs hs
  have hmem : r ∈ L.filter (fun r =>
      r.2.groupExpenseId = geid ∧ r.2.isSettled = false) :=
    List.mem_filter.2 ⟨hr, by simp [hg, hs']⟩
  rw [List.length_eq_zero.1 h] at hmem
  cases hmem

/-- When the named share is already settled and share ids are unique, the
share UPDATE of a settle call only moves timestamps. -/
theorem scrub_shares1 (sid uid now : Nat) (db : DB) (s : ExpenseShare)
    (hnd : (db.shares.map Prod.fst).Nodup) (hmem : (sid, s) ∈ db.shares)
    (hown : s.userId = uid) (hset : s.isSettled = true) :
    (db.shares.map (shareUpd sid uid now)).map scrubShare =
      db.shares.map scrubShare := by
  rw [List.map_map]
  refine List.map_congr_left (fun q hq => ?_)
  show scrubShare (shareUpd sid uid now q) = scrubShare q
  by_cases hc : q.1 = sid ∧ q.2.userId = uid
  · rw [eq_of_mem_of_nodup_keys hnd hq hmem hc.1]
    show scrubShare (shareUpd sid uid now (sid, s)) = scrubShare (sid, s)
    unfold shareUpd
    rw [if_pos ⟨rfl, hown⟩]
    exact scrubShare_upd (sid, s) now hset
  · rw [shareUpd_of_not sid uid now q hc]

/-- Re-stamping the expense row of an already settled expense only moves
its timestamp. -/
theorem scrub_expense_map (db : DB) (geid now : Nat)
    (hflag : ∀ p ∈ db.groupExpenses, p.1 = geid → p.2.isSettled = true) :
    (db.groupExpenses.map (fun p =>
      if p.1 = geid then (p.1, { p.2 with isSettled := true, settledAt := some now })
      else p)).map scrubExpense = db.groupExpenses.map scrubExpense := by
  rw [List.map_map]
  refine List.map_congr_left (fun p hp => ?_)
  show scrubExpense (if p.1 = geid then
      (p.1, { p.2 with isSettled := true, settledAt := some now }) else p) =
    scrubExpense p
  by_cases hpg : p.1 = geid
  · rw [if_pos hpg]
    exact scrubExpense_upd p now (hflag p hp hpg)
  · rw [if_neg hpg]

/-- Scrubbing ignores a shares-and-expenses update that is itself
invisible under scrubbing. -/
theorem scrub_update (db : DB) (S : List (Nat × ExpenseShare))
    (E : List (Nat × GroupExpense))
    (hS : S.map scrubShare = db.shares.map scrubShare)
    (hE : E.map scrubExpense = db.groupExpenses.map scrubExpense) :
    scrub { db with shares := S, groupExpenses := E } = scrub db := by
  simp only [scrub]
  rw [hS, hE]

/-- Scrubbing ignores a shares-only update that is itself invisible
under scrubbing. -/
theorem scrub_update_shares (db : DB) (S : List (Nat × ExpenseShare))
    (hS : S.map scrubShare = db.shares.map scrubShare) :
    scrub { db with shares := S } = scrub db := by
  simp only [scrub]
  rw [hS]

/-- Claim C7, amended: a second `settle_expense_share` call on an already
settled share by the same owning user raises no error and changes no
settlement flag, amount, id or any other column — it only refreshes
`settled_at` timestamps (the share's own, and the parent expense's when
the expense is fully settled): scrubbing timestamps, the store is
unchanged, every other share row is untouched, and every other expense
row is untouched. -/
theorem c7_second_settle_only_restamps (db : DB) (sid uid now : Nat)
    (s : ExpenseShare) (hmem : (sid, s) ∈ db.shares) (hown : s.userId = uid)
    (hset : s.isSettled = true)
    (hnd : (db.shares.map Prod.fst).Nodup) (hinv : settledInv db) :
    scrub (settle_expense_share sid uid now db) = scrub db ∧
    (∀ q ∈ db.shares, q.1 ≠ sid →
      q ∈ (settle_expense_share sid uid now db).shares) ∧
    (∀ p ∈ db.groupExpenses, p.1 ≠ s.groupExpenseId →
      p ∈ (settle_expense_share sid uid now db).groupExpenses) := by
  obtain ⟨w, hfind, hwmem, hw1⟩ := find?_shares1_some sid uid now db s hmem
  have hw : w = shareUpd sid uid now (sid, s) :=
    found_share_eq sid uid now db s hnd hmem hwmem hw1
  have hwgeid : w.2.groupExpenseId = s.groupExpenseId := by
    rw [hw, shareUpd_geid]
  have hsettle : settle_expense_share sid uid now db =
      if ((db.shares.map (shareUpd sid uid now)).filter (fun r =>
            r.2.groupExpenseId = w.2.groupExpenseId ∧
              r.2.isSettled = false)).length = 0 then
        { db with
          shares := db.shares.map (shareUpd sid uid now),
          groupExpenses := db.groupExpenses.map (fun p =>
            if p.1 = w.2.groupExpenseId then
              (p.1, { p.2 with isSettled := true, settledAt := some now })
            else p) }
      else { db with shares := db.shares.map (shareUpd sid uid now) } := by
    simp only [settle_expense_share]
    rw [hfind]
  by_cases hpend : ((db.shares.map (shareUpd sid uid now)).filter (fun r =>
      r.2.groupExpenseId = w.2.groupExpenseId ∧
        r.2.isSettled = false)).length = 0
  · rw [hsettle, if_pos hpend]
    have hall1 := allSettled_of_filter_empty _ _ hpend
    have hallS : ∀ q ∈ db.shares, q.2.groupExpenseId = w.2.groupExpenseId →
        q.2.isSettled = true := by
      intro q hq hqg
      by_cases hc : q.1 = sid ∧ q.2.userId = uid
      · rw [eq_of_mem_of_nodup_keys hnd hq hmem hc.1]
        exact hset
      · have hupd : shareUpd sid uid now q = q := shareUpd_of_not _ _ _ _ hc
        have := hall1 (shareUpd sid uid now q) (List.mem_map_of_mem _ hq)
          (by rw [shareUpd_geid]; exact hqg)
        rwa [hupd] at this
    have hflag : ∀ p ∈ db.groupExpenses, p.1 = w.2.groupExpenseId →
        p.2.isSettled = true := by
      intro p hp hpg
      have hhas : hasShare db p.1 :=
        ⟨(sid, s), hmem, by rw [hpg, hwgeid]⟩
      refine (hinv p hp hhas).2 ?_
      intro q hq hqg
      exact hallS q hq (by rw [← hpg]; exact hqg)
    refine ⟨scrub_update db _ _
        (scrub_shares1 sid uid now db s hnd hmem hown hset)
        (scrub_expense_map db _ now hflag), ?_, ?_⟩
    · intro q hq hqne
      have hupd : shareUpd sid uid now q = q := shareUpd_of_ne_fst _ _ _ _ hqne
      exact hupd ▸ List.mem_map_of_mem _ hq
    · intro p hp hpne
      have hpg : ¬p.1 = w.2.groupExpenseId := by rw [hwgeid]; exact hpne
      have hid : (if p.1 = w.2.groupExpenseId then
          (p.1, { p.2 with isSettled := true, settledAt := some now })
          else p) = p := if_neg hpg
      exact hid ▸ List.mem_map_of_mem _ hp
  · rw [hsettle, if_neg hpend]
    refine ⟨scrub_update_shares db _
        (scrub_shares1 sid uid now db s hnd hmem hown hset), ?_, ?_⟩
    · intro q hq hqne
      have hupd : shareUpd sid uid now q = q := shareUpd_of_ne_fst _ _ _ _ hqne
      exact hupd ▸ List.mem_map_of_mem _ hq
    · intro p hp _
      exact hp

/-- Witness for `c7_second_settle_only_restamps`: the concrete
`settledDb` (share 1 owned and settled by user 2 at time 0), settled a
second time by user 2 at time 7. -/
theorem c7_witness :
    scrub (settle_expense_share 1 2 7 settledDb) = scrub settledDb ∧
    (∀ q ∈ settledDb.shares, q.1 ≠ 1 →
      q ∈ (settle_expense_share 1 2 7 settledDb).shares) ∧
    (∀ p ∈ settledDb.groupExpenses, p.1 ≠ 1 →
      p ∈ (settle_expense_share 1 2 7 settledDb).groupExpenses) :=
  c7_second_settle_only_restamps settledDb 1 2 7 ⟨1, 2, 50, true, some 0⟩
    (by with_unfolding_all decide) (by with_unfolding_all decide)
    (by with_unfolding_all decide) (by with_unfolding_all decide)
    (by with_unfolding_all decide)

/-- A settle call whose share id / user pair matches no row leaves the
share table untouched. -/
theorem map_shareUpd_id (sid uid now : Nat) (db : DB)
    (hno : ∀ q ∈ db.shares, q.1 = sid → q.2.userId ≠ uid) :
    db.shares.map (shareUpd sid uid now) = db.shares := by
  calc db.shares.map (shareUpd sid uid now) = db.shares.map id :=
        List.map_congr_left (fun q hq =>
          shareUpd_of_not sid uid now q (fun hc => hno q hq hc.1 hc.2))
    _ = db.shares := List.map_id _

/-- Claim C8, amended: when the named records exist but are not owned by
the acting user, `update_transaction` and `delete_transaction` are exact
no-ops (zero rows affected, no error, store unchanged);
`settle_expense_share` changes no share row and no settlement flag and
raises no error, but — because its settle-the-expense step runs
regardless of ownership — it may refresh the parent expense's
`settled_at` timestamp when every share of that expense is already
settled; scrubbing timestamps, the store is unchanged. -/
theorem c8_foreign_ops_no_ops (db : DB) (tid uid : Nat) (amount : ℚ)
    (descr cat : Option String) (date ty : String) (pm tags : Option String)
    (sid suid now : Nat)
    (htx : ∀ t ∈ db.transactions, t.1 = tid → t.2.userId ≠ uid)
    (hsh : ∀ q ∈ db.shares, q.1 = sid → q.2.userId ≠ suid)
    (hinv : settledInv db) :
    update_transaction tid uid amount descr cat date ty pm tags db = db ∧
    delete_transaction tid uid db = db ∧
    (settle_expense_share sid suid now db).shares = db.shares ∧
    scrub (settle_expense_share sid suid now db) = scrub db := by
  have hupd : db.transactions.map (fun p =>
      if p.1 = tid ∧ p.2.userId = uid then
        (p.1, ⟨uid, amount, blankToNone descr, blankToNone cat, date, ty,
          blankToNone pm, blankToNone tags⟩)
      else p) = db.transactions := by
    calc db.transactions.map (fun p =>
          if p.1 = tid ∧ p.2.userId = uid then
            (p.1, ⟨uid, amount, blankToNone descr, blankToNone cat, date, ty,
              blankToNone pm, blankToNone tags⟩)
          else p) = db.transactions.map id :=
          List.map_congr_left (fun t ht =>
            if_neg (fun hc => htx t ht hc.1 hc.2))
      _ = db.transactions := List.map_id _
  have hdel : db.transactions.filter (fun p =>
      ¬(p.1 = tid ∧ p.2.userId = uid)) = db.transactions :=
    List.filter_eq_self.mpr (fun t ht => by
      simp only [decide_eq_true_eq]
      exact fun hc => htx t ht hc.1 hc.2)
  have hmap : db.shares.map (shareUpd sid suid now) = db.shares :=
    map_shareUpd_id sid suid now db hsh
  have hsettle : (settle_expense_share sid suid now db).shares = db.shares ∧
      scrub (settle_expense_share sid suid now db) = scrub db := by
    simp only [settle_expense_share, hmap]
    cases hfind : db.shares.find? (fun r => r.1 = sid) with
    | none => exact ⟨rfl, rfl⟩
    | some w =>
        dsimp only
        by_cases hpend : (db.shares.filter (fun r =>
            r.2.groupExpenseId = w.2.groupExpenseId ∧
              r.2.isSettled = false)).length = 0
        · rw [if_pos hpend]
          refine ⟨rfl, ?_⟩
          have hwmem : w ∈ db.shares := List.mem_of_find?_eq_some hfind
          have hflag : ∀ p ∈ db.groupExpenses,
              p.1 = w.2.groupExpenseId → p.2.isSettled = true := by
            intro p hp hpg
            have hhas : hasShare db p.1 := ⟨w, hwmem, hpg.symm⟩
            refine (hinv p hp hhas).2 ?_
            intro q hq hqg
            exact allSettled_of_filter_empty db.shares w.2.groupExpenseId
              hpend q hq (hpg ▸ hqg)
          exact scrub_update db db.shares _ rfl
            (scrub_expense_map db _ now hflag)
        · rw [if_neg hpend]
          exact ⟨rfl, rfl⟩
  refine ⟨?_, ?_, hsettle.1, hsettle.2⟩
  · simp only [update_transaction]
    rw [hupd]
  · simp only [delete_transaction]
    rw [hdel]

/-- Concrete store for the C8 witness: `settledDb` plus one transaction
(id 1) owned by user 2. -/
def settledTxnDb : DB :=
  (add_transaction 2 5 none none "2024-01-03" "Expense" none none settledDb).2

/-- Witness for `c8_foreign_ops_no_ops`: user 99 acts on transaction 1
and share 1, both owned by user 2, in `settledTxnDb`. -/
theorem c8_witness :
    update_transaction 1 99 9 none none "2024-03-03" "Expense" none none
      settledTxnDb = settledTxnDb ∧
    delete_transaction 1 99 settledTxnDb = settledTxnDb ∧
    (settle_expense_share 1 99 7 settledTxnDb).shares = settledTxnDb.shares ∧
    scrub (settle_expense_share 1 99 7 settledTxnDb) = scrub settledTxnDb :=
  c8_foreign_ops_no_ops settledTxnDb 1 99 9 none none "2024-03-03" "Expense"
    none none 1 99 7 (by with_unfolding_all decide)
    (by with_unfolding_all decide) (by with_unfolding_all decide)

/-- Well-formedness of the share table maintained by the AUTOINCREMENT
primary key and the insert path: ids are unique and below the next free
id, and every share points to an already allocated expense id. -/
def sharesWF (db : DB) : Prop :=
  (db.shares.map Prod.fst).Nodup ∧
  ∀ q ∈ db.shares, q.1 < db.nextShareId ∧
    q.2.groupExpenseId < db.nextExpenseId

/-- Expense ids are below the next free id. -/
def expensesWF (db : DB) : Prop :=
  ∀ p ∈ db.groupExpenses, p.1 < db.nextExpenseId

/-- Combined well-formedness of the settlement-relevant tables. -/
def dbWF (db : DB) : Prop := sharesWF db ∧ expensesWF db

/-- The settlement invariant and well-formedness only look at the share
and expense tables and their id counters. -/
theorem inv_transport (db db' : DB)
    (hsh : db'.shares = db.shares) (hge : db'.groupExpenses = db.groupExpenses)
    (hns : db'.nextShareId = db.nextShareId)
    (hne : db'.nextExpenseId = db.nextExpenseId)
    (h : dbWF db ∧ settledInv db) : dbWF db' ∧ settledInv db' := by
  unfold dbWF sharesWF expensesWF settledInv hasShare allSharesSettled at h ⊢
  rw [hsh, hge, hns, hne]
  exact h

/-- `set_budget` only touches the budgets table. -/
theorem set_budget_frame (uid : Nat) (ym : String) (cat : Option String)
    (a : ℚ) (db : DB) :
    (set_budget uid ym cat a db).shares = db.shares ∧
    (set_budget uid ym cat a db).groupExpenses = db.groupExpenses ∧
    (set_budget uid ym cat a db).nextShareId = db.nextShareId ∧
    (set_budget uid ym cat a db).nextExpenseId = db.nextExpenseId := by
  cases cat with
  | none => exact ⟨rfl, rfl, rfl, rfl⟩
  | some c =>
      dsimp only [set_budget]
      refine ⟨?_, ?_, ?_, ?_⟩ <;> (split <;> rfl)

/-- Every row created by the share-insert loop has its id in the handed
out range, points to the new expense, and is unsettled. -/
theorem mkShares_mem (eid : Nat) :
    ∀ (s : Nat) (l : List (Nat × ℚ)) (q : Nat × ExpenseShare),
      q ∈ mkShares eid s l →
      s ≤ q.1 ∧ q.1 < s + l.length ∧ q.2.groupExpenseId = eid ∧
        q.2.isSettled = false := by
  intro s l
  induction l generalizing s with
  | nil => intro q hq; cases hq
  | cons e rest ih =>
    intro q hq
    rcases List.mem_cons.1 hq with rfl | hq2
    · exact ⟨Nat.le_refl _, by simp, rfl, rfl⟩
    · obtain ⟨h1, h2, h3, h4⟩ := ih (s + 1) q hq2
      refine ⟨by omega, by simp only [List.length_cons]; omega, h3, h4⟩

/-- The consecutive ids handed out by the share-insert loop are
distinct. -/
theorem mkShares_fst_nodup (eid : Nat) :
    ∀ (s : Nat) (l : List (Nat × ℚ)),
      ((mkShares eid s l).map Prod.fst).Nodup := by
  intro s l
  induction l generalizing s with
  | nil => simp [mkShares]
  | cons e rest ih =>
    show ((((s : Nat), (⟨eid, e.1, e.2, false, none⟩ : ExpenseShare)) ::
      mkShares eid (s + 1) rest).map Prod.fst).Nodup
    rw [List.map_cons, List.nodup_cons]
    refine ⟨?_, ih (s + 1)⟩
    intro hmem
    obtain ⟨q, hq, hq1⟩ := List.mem_map.1 hmem
    have := (mkShares_mem eid (s + 1) rest q hq).1
    omega

/-- The head row of a nonempty share-insert. -/
theorem mkShares_head_mem (eid s : Nat) (e : Nat × ℚ) (rest : List (Nat × ℚ)) :
    ((s : Nat), (⟨eid, e.1, e.2, false, none⟩ : ExpenseShare)) ∈
      mkShares eid s (e :: rest) :=
  List.mem_cons_self _ _

/-- Any share row of an expense other than the one found by the settle
lookup is untouched by the share UPDATE (share ids being unique). -/
theorem shareUpd_id_of_geid_ne (sid uid now : Nat) (db : DB)
    (hnd : (db.shares.map Prod.fst).Nodup)
    {w : Nat × ExpenseShare}
    (hw : w ∈ db.shares.map (shareUpd sid uid now)) (hw1 : w.1 = sid)
    {x : Nat} (hx : x ≠ w.2.groupExpenseId) :
    ∀ q ∈ db.shares, q.2.groupExpenseId = x → shareUpd sid uid now q = q := by
  intro q hq hqg
  by_cases hc : q.1 = sid ∧ q.2.userId = uid
  · exfalso
    obtain ⟨q0, hq0, rfl⟩ := List.mem_map.1 hw
    have hq01 : q0.1 = sid := by
      rw [← shareUpd_fst sid uid now q0]
      exact hw1
    have hqq0 : q = q0 :=
      eq_of_mem_of_nodup_keys hnd hq hq0 (hc.1.trans hq01.symm)
    rw [hqq0] at hqg
    rw [shareUpd_geid] at hx
    exact hx (hqg ▸ rfl)
  · exact shareUpd_of_not _ _ _ _ hc

/-- The share UPDATE does not change which expenses have shares. -/
theorem hasShare_map_iff (sid uid now : Nat) (db : DB) (x : Nat) :
    (∃ r ∈ db.shares.map (shareUpd sid uid now), r.2.groupExpenseId = x) ↔
      hasShare db x := by
  constructor
  · rintro ⟨r, hr, hrg⟩
    obtain ⟨q, hq, rfl⟩ := List.mem_map.1 hr
    refine ⟨q, hq, ?_⟩
    rw [← shareUpd_geid sid uid now q]
    exact hrg
  · rintro ⟨q, hq, hqg⟩
    refine ⟨shareUpd sid uid now q, List.mem_map_of_mem _ hq, ?_⟩
    rw [shareUpd_geid]
    exact hqg

/-- When the share UPDATE fixes every share of an expense, that
expense's all-settled property is unchanged. -/
theorem allSettled_map_iff_of_id (sid uid now : Nat) (db : DB) (x : Nat)
    (hid : ∀ q ∈ db.shares, q.2.groupExpenseId = x →
      shareUpd sid uid now q = q) :
    (∀ r ∈ db.shares.map (shareUpd sid uid now),
        r.2.groupExpenseId = x → r.2.isSettled = true) ↔
      allSharesSettled db x := by
  constructor
  · intro h q hq hqg
    have hq2 := h (shareUpd sid uid now q) (List.mem_map_of_mem _ hq)
      (by rw [shareUpd_geid]; exact hqg)
    rwa [hid q hq hqg] at hq2
  · intro h r hr hrg
    obtain ⟨q, hq, rfl⟩ := List.mem_map.1 hr
    have hqg : q.2.groupExpenseId = x := by
      rw [← shareUpd_geid sid uid now q]
      exact hrg
    rw [hid q hq hqg]
    exact h q hq hqg

/-- Every store state reachable through the operations of `src/db.py` is
well-formed and satisfies the settlement invariant. -/
theorem reachable_wf_inv (db : DB) (h : Reachable db) :
    dbWF db ∧ settledInv db := by
  induction h with
  | init =>
      refine ⟨⟨⟨List.nodup_nil, ?_⟩, ?_⟩, ?_⟩
      · intro q hq
        exact absurd hq (List.not_mem_nil q)
      · intro p hp
        exact absurd hp (List.not_mem_nil p)
      · intro p hp
        exact absurd hp (List.not_mem_nil p)
  | create_user n e pw _ ih => exact inv_transport _ _ rfl rfl rfl rfl ih
  | update_user_password u nh _ ih => exact inv_transport _ _ rfl rfl rfl rfl ih
  | add_transaction _ _ _ _ _ _ _ _ _ ih =>
      exact inv_transport _ _ rfl rfl rfl rfl ih
  | update_transaction _ _ _ _ _ _ _ _ _ _ ih =>
      exact inv_transport _ _ rfl rfl rfl rfl ih
  | delete_transaction _ _ _ ih => exact inv_transport _ _ rfl rfl rfl rfl ih
  | set_budget u ym cat a _ ih =>
      rename_i db hreach
      obtain ⟨h1, h2, h3, h4⟩ := set_budget_frame u ym cat a db
      exact inv_transport _ _ h1 h2 h3 h4 ih
  | add_group_expense title amount payerId category date description shs _ ih =>
      rename_i db hreach
      obtain ⟨⟨hnd, hbounds⟩, hexp⟩ := ih.1
      have hinv := ih.2
      constructor
      · refine ⟨⟨?_, ?_⟩, ?_⟩
        · show ((db.shares ++
            mkShares db.nextExpenseId db.nextShareId shs).map Prod.fst).Nodup
          rw [List.map_append, List.nodup_append]
          refine ⟨hnd, mkShares_fst_nodup _ _ _, ?_⟩
          intro a ha hb
          obtain ⟨q, hq, rfl⟩ := List.mem_map.1 ha
          obtain ⟨r, hr, hqr⟩ := List.mem_map.1 hb
          have h1 := (hbounds q hq).1
          have h2 := (mkShares_mem _ _ _ r hr).1
          omega
        · intro q hq
          rcases List.mem_append.1 hq with hqs | hqm
          · have := hbounds q hqs
            constructor
            · show q.1 < db.nextShareId + shs.length
              omega
            · show q.2.groupExpenseId < db.nextExpenseId + 1
              omega
          · have := mkShares_mem _ _ _ q hqm
            constructor
            · show q.1 < db.nextShareId + shs.length
              omega
            · show q.2.groupExpenseId < db.nextExpenseId + 1
              rw [this.2.2.1]
              omega
        · intro p hp
          rcases List.mem_append.1 hp with hps | hpn
          · have := hexp p hps
            show p.1 < db.nextExpenseId + 1
            omega
          · rw [List.mem_singleton.1 hpn]
            show db.nextExpenseId < db.nextExpenseId + 1
            omega
      · intro p hp hhas
        rcases List.mem_append.1 hp with hps | hpn
        · have hlt := hexp p hps
          have hshares_id : ∀ q ∈ db.shares ++
              mkShares db.nextExpenseId db.nextShareId shs,
              q.2.groupExpenseId = p.1 → q ∈ db.shares := by
            intro q hq hqg
            rcases List.mem_append.1 hq with h | h
            · exact h
            · exfalso
              have := (mkShares_mem _ _ _ q h).2.2.1
              omega
          have hhas0 : hasShare db p.1 := by
            obtain ⟨q, hq, hqg⟩ := hhas
            exact ⟨q, hshares_id q hq hqg, hqg⟩
          have hiff := hinv p hps hhas0
          constructor
          · intro hflag q hq hqg
            exact (hiff.1 hflag) q (hshares_id q hq hqg) hqg
          · intro hall
            refine hiff.2 ?_
            intro q hq hqg
            exact hall q (List.mem_append_left _ hq) hqg
        · rw [List.mem_singleton.1 hpn] at hhas ⊢
          obtain ⟨q, hq, hqg⟩ := hhas
          have hqm : q ∈ mkShares db.nextExpenseId db.nextShareId shs := by
            rcases List.mem_append.1 hq with h | h
            · exfalso
              have := (hbounds q h).2
              have hq1 : q.2.groupExpenseId = db.nextExpenseId := hqg
              omega
            · exact h
          have hqf : q.2.isSettled = false := (mkShares_mem _ _ _ q hqm).2.2.2
          constructor
          · intro hfalse
            exact absurd hfalse (by simp)
          · intro hall
            have := hall q hq hqg
            rw [hqf] at this
            exact absurd this (by simp)
  | settle_expense_share sid uid now _ ih =>
      rename_i db hreach
      obtain ⟨⟨hnd, hbounds⟩, hexp⟩ := ih.1
      have hinv := ih.2
      have hndmap : ((db.shares.map (shareUpd sid uid now)).map
          Prod.fst).Nodup := by
        rw [List.map_map]
        have hcomp : ∀ q ∈ db.shares,
            (Prod.fst ∘ shareUpd sid uid now) q = Prod.fst q :=
          fun q _ => shareUpd_fst sid uid now q
        rw [List.map_congr_left hcomp]
        exact hnd
      have hbmap : ∀ q ∈ db.shares.map (shareUpd sid uid now),
          q.1 < db.nextShareId ∧ q.2.groupExpenseId < db.nextExpenseId := by
        intro q hq
        obtain ⟨q0, hq0, rfl⟩ := List.mem_map.1 hq
        rw [shareUpd_fst, shareUpd_geid]
        exact hbounds q0 hq0
      simp only [settle_expense_share]
      cases hfind : (db.shares.map (shareUpd sid uid now)).find?
          (fun r => r.1 = sid) with
      | none =>
          dsimp only
          have hid : db.shares.map (shareUpd sid uid now) = db.shares := by
            have hnone := List.find?_eq_none.1 hfind
            calc db.shares.map (shareUpd sid uid now) = db.shares.map id :=
                  List.map_congr_left (fun q hq => by
                    refine shareUpd_of_ne_fst sid uid now q (fun hq1 => ?_)
                    have := hnone (shareUpd sid uid now q)
                      (List.mem_map_of_mem _ hq)
                    rw [shareUpd_fst, hq1] at this
                    simp at this)
              _ = db.shares := List.map_id _
          exact inv_transport db _ hid rfl rfl rfl ih
      | some w =>
          dsimp only
          have hwmem : w ∈ db.shares.map (shareUpd sid uid now) :=
            List.mem_of_find?_eq_some hfind
          have hw1 : w.1 = sid := by simpa using List.find?_some hfind
          by_cases hpend : ((db.shares.map (shareUpd sid uid now)).filter
              (fun r => r.2.groupExpenseId = w.2.groupExpenseId ∧
                r.2.isSettled = false)).length = 0
          · rw [if_pos hpend]
            have hall1 := allSettled_of_filter_empty _ _ hpend
            constructor
            · refine ⟨⟨hndmap, hbmap⟩, ?_⟩
              intro p hp
              obtain ⟨p0, hp0, rfl⟩ := List.mem_map.1 hp
              by_cases hpg : p0.1 = w.2.groupExpenseId
              · rw [if_pos hpg]
                exact hexp p0 hp0
              · rw [if_neg hpg]
                exact hexp p0 hp0
            · intro p hp hhas
              obtain ⟨p0, hp0, rfl⟩ := List.mem_map.1 hp
              have hfst : (if p0.1 = w.2.groupExpenseId then
                  (p0.1, { p0.2 with isSettled := true, settledAt := some now })
                  else p0).1 = p0.1 := by
                by_cases h : p0.1 = w.2.groupExpenseId
                · rw [if_pos h]
                · rw [if_neg h]
              rw [hfst] at hhas ⊢
              by_cases hpg : p0.1 = w.2.groupExpenseId
              · rw [if_pos hpg]
                constructor
                · intro _ q hq hqg
                  exact hall1 q hq (by rw [hqg, hpg])
                · intro _
                  rfl
              · rw [if_neg hpg]
                have hid2 := shareUpd_id_of_geid_ne sid uid now db hnd
                  hwmem hw1 hpg
                have hhas0 : hasShare db p0.1 :=
                  (hasShare_map_iff sid uid now db p0.1).1 hhas
                have hiff := hinv p0 hp0 hhas0
                have htrans := allSettled_map_iff_of_id sid uid now db p0.1 hid2
                exact hiff.trans htrans.symm
          · rw [if_neg hpend]
            constructor
            · exact ⟨⟨hndmap, hbmap⟩, hexp⟩
            · intro p hp hhas
              by_cases hpg : p.1 = w.2.groupExpenseId
              · have hne : (db.shares.map (shareUpd sid uid now)).filter
                    (fun r => r.2.groupExpenseId = w.2.groupExpenseId ∧
                      r.2.isSettled = false) ≠ [] := by
                  intro hnil
                  exact hpend (by rw [hnil]; rfl)
                obtain ⟨r0, hr0⟩ := List.exists_mem_of_ne_nil _ hne
                have hr0m := List.mem_filter.1 hr0
                have hr0c : r0.2.groupExpenseId = w.2.groupExpenseId ∧
                    r0.2.isSettled = false := by simpa using hr0m.2
                constructor
                · intro hflag
                  exfalso
                  have hhas0 : hasShare db p.1 :=
                    (hasShare_map_iff sid uid now db p.1).1 hhas
                  have hall0 : allSharesSettled db p.1 :=
                    (hinv p hp hhas0).1 hflag
                  obtain ⟨q0, hq0, rfl⟩ := List.mem_map.1 hr0m.1
                  have hq0g : q0.2.groupExpenseId = p.1 := by
                    rw [← shareUpd_geid sid uid now q0, hr0c.1, hpg]
                  have hq0s := hall0 q0 hq0 hq0g
                  have hset2 := shareUpd_settled_of sid uid now q0 hq0s
                  rw [hr0c.2] at hset2
                  exact absurd hset2 (by simp)
                · intro hall
                  exfalso
                  have := hall r0 hr0m.1 (by rw [hr0c.1, hpg])
                  rw [hr0c.2] at this
                  exact absurd this (by simp)
              · have hid2 := shareUpd_id_of_geid_ne sid uid now db hnd
                  hwmem hw1 hpg
                have hhas0 : hasShare db p.1 :=
                  (hasShare_map_iff sid uid now db p.1).1 hhas
                have hiff := hinv p hp hhas0
                have htrans := allSettled_map_iff_of_id sid uid now db p.1 hid2
                exact hiff.trans htrans.symm

/-- Claim C1: in every reachable store state, a group expense that has at
least one share is flagged settled if and only if every one of its child
shares is settled — the parent flag is re-derived inside the same settle
operation that transitions a share and is never left stale. -/
theorem c1_settlement_invariant (db : DB) (h : Reachable db) :
    settledInv db :=
  (reachable_wf_inv db h).2

/-- Witness for `c1_settlement_invariant`: the concrete dinner scenario
state after Alice and Bob settled, reached through the store operations
from the empty database. -/
theorem c1_witness : settledInv dinnerAfterB :=
  c1_settlement_invariant dinnerAfterB
    (Reachable.settle_expense_share 2 3 20
      (Reachable.settle_expense_share 1 2 10
        (Reachable.add_group_expense "Dinner" 300 1 "Food" "2024-05-01"
          "trip" dinnerShares
          (Reachable.create_user "Bob" "b@x" "h"
            (Reachable.create_user "Alice" "a@x" "h"
              (Reachable.create_user "Pat" "p@x" "h" Reachable.init))))))
